import Mathlib

/-
Shallow embedding of `heredity.py`: exact probabilistic inference over a family
Bayesian network (gene with 0/1/2 copies, observable trait conditioned on the
gene count).  Python floats are modelled by exact rationals, dictionaries by
association lists keyed by a person's name (a `Nat`), and Python sets of names
by lists of names with decidable membership.  A Python `ZeroDivisionError`
raised inside `normalizeProbs` is modelled by `Option` (`none` = the error).
-/

/-- One row of the family dictionary: `{"mother": ..., "father": ..., "trait": ...}`
(the redundant `"name"` field of the Python dict is the association-list key). -/
structure PersonRec where
  mother : Option Nat
  father : Option Nat
  trait : Option Bool
deriving DecidableEq

/-- The family dictionary `people`: insertion-ordered mapping name ↦ record. -/
abbrev People := List (Nat × PersonRec)

/-- `PROBS["gene"]` : unconditional probabilities for the gene count. -/
def PROBSgene : Nat → ℚ
  | 2 => 1/100
  | 1 => 3/100
  | 0 => 96/100
  | _ => 0

/-- `PROBS["trait"]` : probability of the trait given the gene count. -/
def PROBStrait : Nat → Bool → ℚ
  | 2, true => 65/100
  | 2, false => 35/100
  | 1, true => 56/100
  | 1, false => 44/100
  | 0, true => 1/100
  | 0, false => 99/100
  | _, _ => 0

/-- `PROBS["mutation"]`. -/
def PROBSmutation : ℚ := 1/100

/-- `powerset(s)`: the list of all subsets (as lists) of a list of names.
(The Python version lists subsets by increasing size; only the collection of
subsets, never their order, matters to any accumulated value.) -/
def powerset : List Nat → List (List Nat)
  | [] => [[]]
  | x :: xs => powerset xs ++ (powerset xs).map (fun s => x :: s)

/-- `names = set(people)`: the keys of the family dictionary. -/
def pnames (people : People) : List Nat := people.map Prod.fst

/-- The gene count the hypothesis `(one_gene, two_genes)` assigns to a person:
`2 if person in two_genes else 1 if person in one_gene else 0`. -/
def geneCount (oneGene twoGenes : List Nat) (person : Nat) : Nat :=
  if person ∈ twoGenes then 2 else if person ∈ oneGene then 1 else 0

/-- Membership test of an optional parent name in a set of names
(Python: `None in s` is `False`). -/
def optMem (o : Option Nat) (l : List Nat) : Bool :=
  match o with
  | none => false
  | some x => decide (x ∈ l)

/-- `pass_mother` / `pass_father`: probability that a parent passes the gene,
read off the parent's membership in the hypothesis sets. -/
def passProb (oneGene twoGenes : List Nat) (parent : Option Nat) : ℚ :=
  if optMem parent twoGenes then 1 - PROBSmutation
  else if optMem parent oneGene then 1/2
  else PROBSmutation

/-- `gene_probability` for one person inside `joint_probability`'s loop. -/
def geneProbability (oneGene twoGenes : List Nat) (person : Nat) (rec : PersonRec) : ℚ :=
  if rec.mother = none ∧ rec.father = none then
    PROBSgene (geneCount oneGene twoGenes person)
  else
    let passMother := passProb oneGene twoGenes rec.mother
    let passFather := passProb oneGene twoGenes rec.father
    if geneCount oneGene twoGenes person = 2 then
      passMother * passFather
    else if geneCount oneGene twoGenes person = 1 then
      passMother * (1 - passFather) + (1 - passMother) * passFather
    else
      (1 - passMother) * (1 - passFather)

/-- One person's contribution `gene_probability * trait_probability` in
`joint_probability`'s loop body. -/
def personFactor (oneGene twoGenes haveTrait : List Nat) (person : Nat) (rec : PersonRec) : ℚ :=
  geneProbability oneGene twoGenes person rec *
    PROBStrait (geneCount oneGene twoGenes person) (decide (person ∈ haveTrait))

/-- `joint_probability(people, one_gene, two_genes, have_trait)`. -/
def jointProbability (people : People) (oneGene twoGenes haveTrait : List Nat) : ℚ :=
  people.foldl
    (fun probability pr => probability * personFactor oneGene twoGenes haveTrait pr.1 pr.2) 1

/-- One person's accumulator `{"gene": {2,1,0}, "trait": {True, False}}`. -/
structure PDist where
  gene2 : ℚ
  gene1 : ℚ
  gene0 : ℚ
  traitT : ℚ
  traitF : ℚ
deriving DecidableEq

/-- The zero-initialized accumulator of `main`. -/
def PDist.zero : PDist := ⟨0, 0, 0, 0, 0⟩

/-- `probabilities = {person: {... 0 ...} for person in people}`. -/
def initProbabilities (people : People) : List (Nat × PDist) :=
  people.map (fun pr => (pr.1, PDist.zero))

/-- `sum(probabilities[person]["gene"].values())`. -/
def geneSum (d : PDist) : ℚ := d.gene2 + d.gene1 + d.gene0

/-- `sum(probabilities[person]["trait"].values())`. -/
def traitSum (d : PDist) : ℚ := d.traitT + d.traitF

/-- Bucket selector for the gene accumulator of one person. -/
def geneBucket (d : PDist) : Nat → ℚ
  | 2 => d.gene2
  | 1 => d.gene1
  | 0 => d.gene0
  | _ => 0

/-- Bucket selector for the trait accumulator of one person. -/
def traitBucket (d : PDist) : Bool → ℚ
  | true => d.traitT
  | false => d.traitF

/-- `update`'s loop body for one person: `probabilities[person]["gene"][genes] += p`
and `probabilities[person]["trait"][has_trait] += p`. -/
def updateDist (oneGene twoGenes haveTrait : List Nat) (p : ℚ) (person : Nat) (d : PDist) :
    PDist :=
  let genes := geneCount oneGene twoGenes person
  let hasTrait : Bool := decide (person ∈ haveTrait)
  { gene2 := d.gene2 + if genes = 2 then p else 0
    gene1 := d.gene1 + if genes = 1 then p else 0
    gene0 := d.gene0 + if genes = 0 then p else 0
    traitT := d.traitT + if hasTrait then p else 0
    traitF := d.traitF + if hasTrait then 0 else p }

/-- `update(probabilities, one_gene, two_genes, have_trait, p)` (returns the
mutated accumulator). -/
def update (probabilities : List (Nat × PDist)) (oneGene twoGenes haveTrait : List Nat)
    (p : ℚ) : List (Nat × PDist) :=
  probabilities.map (fun nd => (nd.1, updateDist oneGene twoGenes haveTrait p nd.1 nd.2))

/-- `normalizeProbs`'s body for one person; `none` models the `ZeroDivisionError`
Python raises when a distribution's sum is zero. -/
def normalizeDist (d : PDist) : Option PDist :=
  if geneSum d = 0 then none
  else if traitSum d = 0 then none
  else some ⟨d.gene2 / geneSum d, d.gene1 / geneSum d, d.gene0 / geneSum d,
             d.traitT / traitSum d, d.traitF / traitSum d⟩

/-- `normalize(probabilities)`: person by person; the first zero sum aborts the
whole loop with the modelled `ZeroDivisionError`. -/
def normalizeProbs : List (Nat × PDist) → Option (List (Nat × PDist))
  | [] => some []
  | nd :: rest =>
    match normalizeDist nd.2 with
    | none => none
    | some d =>
      match normalizeProbs rest with
      | none => none
      | some rest' => some ((nd.1, d) :: rest')

/-- The successful result of `normalizeDist` (both sums divided out). -/
def scaleDist (d : PDist) : PDist :=
  ⟨d.gene2 / geneSum d, d.gene1 / geneSum d, d.gene0 / geneSum d,
   d.traitT / traitSum d, d.traitF / traitSum d⟩

/-- `fails_evidence` inside `main`'s trait loop. -/
def failsEvidence (people : People) (haveTrait : List Nat) : Bool :=
  people.any (fun pr =>
    pr.2.trait ≠ none && pr.2.trait ≠ some (decide (pr.1 ∈ haveTrait)))

/-- The hypotheses `(one_gene, two_genes, have_trait)` that reach
`joint_probability` / `update` in `main`, in loop order: trait subsets
surviving the evidence filter outermost, then `one_gene`, then `two_genes`
over the remaining names. -/
def hypothesesList (people : People) : List (List Nat × List Nat × List Nat) :=
  ((powerset (pnames people)).filter (fun ht => !failsEvidence people ht)).flatMap
    (fun ht => (powerset (pnames people)).flatMap
      (fun og => ((powerset ((pnames people).filter (fun x => decide (x ∉ og)))).map
        (fun tg => (og, tg, ht)))))

/-- `main`'s accumulation loop: fold `update` with the joint probability of
each hypothesis over a list of hypotheses. -/
def runHyps (people : People) (hyps : List (List Nat × List Nat × List Nat))
    (probabilities : List (Nat × PDist)) : List (Nat × PDist) :=
  hyps.foldl
    (fun probs h => update probs h.1 h.2.1 h.2.2 (jointProbability people h.1 h.2.1 h.2.2))
    probabilities

/-- The accumulator state of `main` when `normalizeProbs` is reached. -/
def mainProbabilities (people : People) : List (Nat × PDist) :=
  runHyps people (hypothesesList people) (initProbabilities people)

/-- The whole inference pipeline of `main` after loading: enumerate, filter,
evaluate, accumulate, normalizeProbs. -/
def runProgram (people : People) : Option (List (Nat × PDist)) :=
  normalizeProbs (mainProbabilities people)

/-- Sum of a rational-valued function over a list. -/
def sumMap (l : List α) (f : α → ℚ) : ℚ := (l.map f).sum

/-- Sum of `joint_probability` over the entire unfiltered hypothesis space
(every trait subset, every `one_gene` subset, every `two_genes` subset of the
remaining names), exactly as `main` enumerates it but ignoring evidence. -/
def totalMass (people : People) : ℚ :=
  sumMap (powerset (pnames people)) (fun ht =>
    sumMap (powerset (pnames people)) (fun og =>
      sumMap (powerset ((pnames people).filter (fun x => decide (x ∉ og))))
        (fun tg => jointProbability people og tg ht)))

/-- The validity condition C3 states: every person is a founder or has two
parents present in the graph. -/
def validGraphB (people : People) : Bool :=
  people.all (fun pr =>
    match pr.2.mother, pr.2.father with
    | none, none => true
    | some m, some f => decide (m ∈ pnames people) && decide (f ∈ pnames people)
    | _, _ => false)

/-- Well-formedness of the data model: each person has both parents or neither. -/
def wellFormedB (people : People) : Bool :=
  people.all (fun pr =>
    match pr.2.mother, pr.2.father with
    | none, none => true
    | some _, some _ => true
    | _, _ => false)

/-- The given person list is ordered children-before-parents: no person is
referenced as a parent by itself or by anyone listed at or after it.  Such an
ordering exists exactly when nobody is their own ancestor (the graph is
acyclic). -/
def childrenFirstB : People → Bool
  | [] => true
  | pr :: ps =>
    ((pr :: ps).all (fun q => q.2.mother ≠ some pr.1 && q.2.father ≠ some pr.1)) &&
      childrenFirstB ps

/-- No trait evidence anywhere in the graph. -/
def noEvidenceB (people : People) : Bool :=
  people.all (fun pr => pr.2.trait = none)

/-- Modelled from the spec: the spec's "pass probability" as a function of the
parent's hypothesized gene count (2 ↦ 1 − mutationRate, 1 ↦ 0.5, 0 ↦ mutationRate). -/
def specPassFromCount : Nat → ℚ
  | 2 => 1 - PROBSmutation
  | 1 => 1/2
  | _ => PROBSmutation

/-- The spec's per-person factor of C1: gene-count probability (prior for a
founder, pass-probability combination for a person with two parents) times the
trait probability; 0 in the malformed one-parent case which C1's family-graph
model excludes. -/
def specPersonFactor (oneGene twoGenes haveTrait : List Nat) (person : Nat)
    (rec : PersonRec) : ℚ :=
  let genes := geneCount oneGene twoGenes person
  let geneP : ℚ :=
    match rec.mother, rec.father with
    | none, none => PROBSgene genes
    | some m, some f =>
      let pm := specPassFromCount (geneCount oneGene twoGenes m)
      let pf := specPassFromCount (geneCount oneGene twoGenes f)
      if genes = 2 then pm * pf
      else if genes = 1 then pm * (1 - pf) + (1 - pm) * pf
      else (1 - pm) * (1 - pf)
    | _, _ => 0
  geneP * PROBStrait genes (decide (person ∈ haveTrait))

/-- Pointwise sum of two accumulators. -/
def addDist (d e : PDist) : PDist :=
  ⟨d.gene2 + e.gene2, d.gene1 + e.gene1, d.gene0 + e.gene0,
   d.traitT + e.traitT, d.traitF + e.traitF⟩

/-- The total contribution a list of hypotheses accumulates into one person's
buckets: each bucket is the sum of the joint probabilities of the hypotheses
selecting that bucket. -/
def contribDist (people : People) (hyps : List (List Nat × List Nat × List Nat))
    (n : Nat) : PDist :=
  { gene2 := sumMap hyps (fun h =>
      if geneCount h.1 h.2.1 n = 2 then jointProbability people h.1 h.2.1 h.2.2 else 0)
    gene1 := sumMap hyps (fun h =>
      if geneCount h.1 h.2.1 n = 1 then jointProbability people h.1 h.2.1 h.2.2 else 0)
    gene0 := sumMap hyps (fun h =>
      if geneCount h.1 h.2.1 n = 0 then jointProbability people h.1 h.2.1 h.2.2 else 0)
    traitT := sumMap hyps (fun h =>
      if n ∈ h.2.2 then jointProbability people h.1 h.2.1 h.2.2 else 0)
    traitF := sumMap hyps (fun h =>
      if n ∈ h.2.2 then 0 else jointProbability people h.1 h.2.1 h.2.2) }

/-- Innermost (two-gene) level of the weighted hypothesis-space mass. -/
def wTG (people : People) (φ : List Nat → List Nat → ℚ) (ns og ht : List Nat) : ℚ :=
  sumMap (powerset (ns.filter (fun x => decide (x ∉ og))))
    (fun tg => φ og tg * jointProbability people og tg ht)

/-- One-gene level of the weighted hypothesis-space mass. -/
def wOG (people : People) (φ : List Nat → List Nat → ℚ) (ns ht : List Nat) : ℚ :=
  sumMap (powerset ns) (fun og => wTG people φ ns og ht)

/-- The unfiltered hypothesis-space mass weighted per gene assignment: `φ og tg`
scales the joint probability of every hypothesis built on `(og, tg)`. -/
def massOverW (people : People) (ns : List Nat) (φ : List Nat → List Nat → ℚ) : ℚ :=
  sumMap (powerset ns) (fun ht => wOG people φ ns ht)

/-- Conditional insertion of a name into a set of names. -/
def condCons (b : Bool) (x : Nat) (l : List Nat) : List Nat := if b then x :: l else l

/-
Basic lemmas about the embedding.
-/

/-- A multiplicative left fold is the product of the mapped list. -/
theorem foldl_mul_map {α : Type} (f : α → ℚ) :
    ∀ (l : List α) (a : ℚ), l.foldl (fun acc x => acc * f x) a = a * (l.map f).prod
  | [], a => by simp
  | x :: xs, a => by
    rw [List.foldl_cons, foldl_mul_map f xs (a * f x), List.map_cons, List.prod_cons]
    ring

/-- `joint_probability` is the product of the per-person factors. -/
theorem jointProbability_eq_prod (people : People) (oneGene twoGenes haveTrait : List Nat) :
    jointProbability people oneGene twoGenes haveTrait =
      (people.map (fun pr => personFactor oneGene twoGenes haveTrait pr.1 pr.2)).prod := by
  unfold jointProbability
  rw [foldl_mul_map (fun pr : Nat × PersonRec => personFactor oneGene twoGenes haveTrait pr.1 pr.2)
    people 1, one_mul]

/-- Peeling one person off `joint_probability`. -/
theorem jointProbability_cons (pr : Nat × PersonRec) (ps : People)
    (oneGene twoGenes haveTrait : List Nat) :
    jointProbability (pr :: ps) oneGene twoGenes haveTrait =
      personFactor oneGene twoGenes haveTrait pr.1 pr.2 *
        jointProbability ps oneGene twoGenes haveTrait := by
  rw [jointProbability_eq_prod, jointProbability_eq_prod, List.map_cons, List.prod_cons]

/-- The hypothesis's gene count is always 0, 1 or 2. -/
theorem geneCount_cases (oneGene twoGenes : List Nat) (n : Nat) :
    geneCount oneGene twoGenes n = 0 ∨ geneCount oneGene twoGenes n = 1 ∨
      geneCount oneGene twoGenes n = 2 := by
  unfold geneCount
  split
  · exact Or.inr (Or.inr rfl)
  split
  · exact Or.inr (Or.inl rfl)
  · exact Or.inl rfl

/-- `normalize` succeeds elementwise when every person's `normalizeDist` does. -/
theorem normalizeProbs_all_some :
    ∀ probs : List (Nat × PDist), (∀ pr ∈ probs, normalizeDist pr.2 = some (scaleDist pr.2)) →
      normalizeProbs probs = some (probs.map (fun pr => (pr.1, scaleDist pr.2)))
  | [], _ => rfl
  | nd :: rest, h => by
    have hrest := normalizeProbs_all_some rest (fun a ha => h a (by simp [ha]))
    simp only [normalizeProbs, h nd (by simp), hrest, List.map_cons]

/-- The concrete family of the worked example: Harry = 0 (mother Lily = 2,
father James = 1, trait observed true), James = 1 (founder, trait true),
Lily = 2 (founder, trait false). -/
def harryFamily : People :=
  [(0, ⟨some 2, some 1, some true⟩), (1, ⟨none, none, some true⟩),
   (2, ⟨none, none, some false⟩)]

/-- Claim C5, counterexample: for hypothesis one-gene={Harry}, two-gene={James},
have-trait={Harry, James}, `joint_probability` does not return 0.0026643247488
(that value belongs to the hypothesis with have-trait={James}). -/
theorem c5_counterexample :
    jointProbability harryFamily [0] [1] [0, 1] ≠ (0.0026643247488 : ℚ) := by
  norm_num [harryFamily, jointProbability, personFactor, geneProbability, geneCount,
    passProb, optMem, PROBSgene, PROBStrait, PROBSmutation, Option.some_ne_none]

/-- Claim C5, amended: for the family {Harry(mother Lily, father James),
James founder, Lily founder} and hypothesis one-gene={Harry}, two-gene={James},
have-trait={Harry, James}, `joint_probability` returns exactly 0.0033909587712
under the fixed probability tables. -/
theorem c5_joint_value :
    jointProbability harryFamily [0] [1] [0, 1] = (0.0033909587712 : ℚ) := by
  norm_num [harryFamily, jointProbability, personFactor, geneProbability, geneCount,
    passProb, optMem, PROBSgene, PROBStrait, PROBSmutation, Option.some_ne_none]

/-- Zero-initialized accumulators for persons Harry = 0, James = 1, Lily = 2. -/
def threeInit : List (Nat × PDist) := [(0, PDist.zero), (1, PDist.zero), (2, PDist.zero)]

/-- Claim C7, counterexample: after `update` with p=0.02 for one-gene={Harry},
two-gene={James}, have-trait={Harry, James}, Lily's zero-gene bucket holds
0.02 ≠ 0, so not every bucket besides the four named ones is 0. -/
theorem c7_counterexample :
    (update threeInit [0] [1] [0, 1] (0.02 : ℚ)).lookup 2 =
      some ⟨0, 0, 0.02, 0, 0.02⟩ ∧ (0.02 : ℚ) ≠ 0 := by
  refine ⟨?_, by norm_num⟩
  norm_num [threeInit, update, updateDist, geneCount, PDist.zero, List.lookup]
  rfl

/-- Claim C7, amended: the single `update` with p=0.02 yields Harry.gene[1]=0.02,
James.gene[2]=0.02, Harry.trait[True]=0.02, James.trait[True]=0.02, and also
Lily.gene[0]=0.02 and Lily.trait[False]=0.02 (update touches every person);
every remaining bucket is 0. -/
theorem c7_update_result :
    update threeInit [0] [1] [0, 1] (0.02 : ℚ) =
      [(0, ⟨0, 0.02, 0, 0.02, 0⟩), (1, ⟨0.02, 0, 0, 0.02, 0⟩),
       (2, ⟨0, 0, 0.02, 0, 0.02⟩)] := by
  norm_num [threeInit, update, updateDist, geneCount, PDist.zero]

/-- Claim C10: `update` adds p to exactly one gene bucket (the one selected by
the hypothesis's gene count, the zero bucket for persons in neither gene set)
and exactly one trait bucket of every person in the accumulator, leaving every
other bucket of every person unchanged. -/
theorem c10_update_frame (oneGene twoGenes haveTrait : List Nat) (p : ℚ) :
    ∀ probs : List (Nat × PDist),
      List.Forall₂ (fun a b : Nat × PDist =>
        b.1 = a.1 ∧
        (∀ c : Fin 3, geneBucket b.2 c.val =
          geneBucket a.2 c.val + if geneCount oneGene twoGenes a.1 = c.val then p else 0) ∧
        (∀ tb : Bool, traitBucket b.2 tb =
          traitBucket a.2 tb + if decide (a.1 ∈ haveTrait) = tb then p else 0))
        probs (update probs oneGene twoGenes haveTrait p)
  | [] => List.Forall₂.nil
  | (n, d) :: rest => by
    refine List.Forall₂.cons ⟨rfl, fun c => ?_, fun tb => ?_⟩
      (c10_update_frame oneGene twoGenes haveTrait p rest)
    · rcases c with ⟨c, hc⟩
      interval_cases c <;> simp [updateDist, geneBucket]
    · cases tb <;> cases h : decide (n ∈ haveTrait) <;> simp [updateDist, traitBucket, h]

/-- `normalizeDist` succeeds and divides each bucket by its distribution's sum
whenever both sums are non-zero. -/
theorem normalizeDist_of_ne (d : PDist) (hg : geneSum d ≠ 0) (ht : traitSum d ≠ 0) :
    normalizeDist d = some (scaleDist d) := by
  unfold normalizeDist scaleDist
  rw [if_neg hg, if_neg ht]

/-- After scaling, the gene buckets sum to 1. -/
theorem geneSum_scaleDist (d : PDist) (hg : geneSum d ≠ 0) : geneSum (scaleDist d) = 1 := by
  unfold geneSum scaleDist at *
  rw [div_add_div_same, div_add_div_same]
  exact div_self hg

/-- After scaling, the trait buckets sum to 1. -/
theorem traitSum_scaleDist (d : PDist) (ht : traitSum d ≠ 0) : traitSum (scaleDist d) = 1 := by
  unfold traitSum scaleDist at *
  rw [div_add_div_same]
  exact div_self ht

/-- Claim C2: when every person's accumulated gene-bucket sum and trait-bucket
sum are non-zero, `normalize` succeeds, replaces each bucket by the bucket
divided by its own distribution's sum (preserving relative proportions), and
each person's gene distribution and trait distribution then sum to exactly 1
(hence within the 1e-9 tolerance). -/
theorem c2_normalize_sums (probs : List (Nat × PDist))
    (h : ∀ pr ∈ probs, geneSum pr.2 ≠ 0 ∧ traitSum pr.2 ≠ 0) :
    normalizeProbs probs = some (probs.map (fun pr => (pr.1, scaleDist pr.2))) ∧
      ∀ pr ∈ probs, geneSum (scaleDist pr.2) = 1 ∧ traitSum (scaleDist pr.2) = 1 := by
  constructor
  · exact normalizeProbs_all_some probs
      (fun a ha => normalizeDist_of_ne a.2 (h a ha).1 (h a ha).2)
  · intro pr hpr
    exact ⟨geneSum_scaleDist pr.2 (h pr hpr).1, traitSum_scaleDist pr.2 (h pr hpr).2⟩

/-- Witness for C2 at a concrete accumulator. -/
theorem c2_witness :
    normalizeProbs [((0 : Nat), (⟨1, 1, 2, 1, 3⟩ : PDist))] =
      some ([((0 : Nat), (⟨1, 1, 2, 1, 3⟩ : PDist))].map
        (fun pr => (pr.1, scaleDist pr.2))) ∧
      ∀ pr ∈ [((0 : Nat), (⟨1, 1, 2, 1, 3⟩ : PDist))],
        geneSum (scaleDist pr.2) = 1 ∧ traitSum (scaleDist pr.2) = 1 :=
  c2_normalize_sums [((0 : Nat), (⟨1, 1, 2, 1, 3⟩ : PDist))]
    (by intro pr hpr; simp only [List.mem_singleton] at hpr; subst hpr
        constructor <;> norm_num [geneSum, traitSum])

/-- Claim C8: a run in which no hypothesis survives the evidence filter leaves
the zero-initialized accumulators untouched, and `normalize` then fails
explicitly (the modelled `ZeroDivisionError`, `none`) instead of producing
output values. -/
theorem c8_empty_space (people : People) (hne : people ≠ []) :
    runHyps people [] (initProbabilities people) = initProbabilities people ∧
      normalizeProbs (initProbabilities people) = none := by
  refine ⟨rfl, ?_⟩
  match people, hne with
  | pr :: ps, _ =>
    simp [initProbabilities, normalizeProbs, normalizeDist, geneSum, PDist.zero]

/-- Witness for C8 at a one-person family. -/
theorem c8_witness :
    runHyps [((0 : Nat), (⟨none, none, none⟩ : PersonRec))] []
        (initProbabilities [((0 : Nat), (⟨none, none, none⟩ : PersonRec))]) =
      initProbabilities [((0 : Nat), (⟨none, none, none⟩ : PersonRec))] ∧
      normalizeProbs (initProbabilities [((0 : Nat), (⟨none, none, none⟩ : PersonRec))]) =
        none :=
  c8_empty_space [((0 : Nat), (⟨none, none, none⟩ : PersonRec))] (by decide)

/-- Claim C4: every hypothesis that reaches the joint-probability evaluator and
the accumulator assigns each person with known trait exactly that trait value;
trait subsets disagreeing with evidence are discarded by the filter before any
evaluation or accumulation. -/
theorem c4_hypotheses_respect_evidence (people : People)
    (h : List Nat × List Nat × List Nat) (hmem : h ∈ hypothesesList people) :
    ∀ pr ∈ people, ∀ b, pr.2.trait = some b → decide (pr.1 ∈ h.2.2) = b := by
  intro pr hpr b hb
  unfold hypothesesList at hmem
  rw [List.mem_flatMap] at hmem
  obtain ⟨ht, hht, hmem⟩ := hmem
  rw [List.mem_flatMap] at hmem
  obtain ⟨og, hog, hmem⟩ := hmem
  rw [List.mem_map] at hmem
  obtain ⟨tg, htg, rfl⟩ := hmem
  rw [List.mem_filter] at hht
  have hfe : failsEvidence people ht = false := by simpa using hht.2
  unfold failsEvidence at hfe
  rw [List.any_eq_false] at hfe
  have hp := hfe pr hpr
  simp [hb] at hp
  exact hp.symm

/-- One person with observed trait, for the C4 witness. -/
def onePersonT : People := [(0, ⟨none, none, some true⟩)]

/-- Witness for C4 at a concrete surviving hypothesis. -/
theorem c4_witness : decide ((0 : Nat) ∈ (([], [], [0]) :
    List Nat × List Nat × List Nat).2.2) = true :=
  c4_hypotheses_respect_evidence onePersonT ([], [], [0]) (by decide)
    (0, ⟨none, none, some true⟩) (by decide) true rfl

/-- A parent's pass probability in the code equals the spec's function of the
parent's hypothesized gene count. -/
theorem passProb_some (oneGene twoGenes : List Nat) (x : Nat) :
    passProb oneGene twoGenes (some x) = specPassFromCount (geneCount oneGene twoGenes x) := by
  unfold passProb specPassFromCount geneCount optMem
  by_cases h2 : x ∈ twoGenes
  · simp [h2]
  · by_cases h1 : x ∈ oneGene <;> simp [h1, h2]

/-- Claim C1: on every well-formed family graph (each person a founder or with
two recorded parents) and every hypothesis, `joint_probability` returns the
product over all persons of gene-count probability times trait probability,
with the founder prior, the parents' pass probabilities and the trait table
exactly as the spec states them. -/
theorem c1_joint_is_product (people : People) (hwf : wellFormedB people = true)
    (oneGene twoGenes haveTrait : List Nat) :
    jointProbability people oneGene twoGenes haveTrait =
      (people.map (fun pr => specPersonFactor oneGene twoGenes haveTrait pr.1 pr.2)).prod := by
  rw [jointProbability_eq_prod]
  congr 1
  apply List.map_congr_left
  intro pr hpr
  have hw := List.all_eq_true.mp hwf pr hpr
  rcases hm : pr.2.mother with _ | m <;> rcases hf : pr.2.father with _ | f
  · simp [personFactor, specPersonFactor, geneProbability, hm, hf]
  · rw [hm, hf] at hw; simp at hw
  · rw [hm, hf] at hw; simp at hw
  · simp [personFactor, specPersonFactor, geneProbability, hm, hf, passProb_some]

/-- Witness for C1 at the worked example family and hypothesis. -/
theorem c1_witness :
    jointProbability harryFamily [0] [1] [0, 1] =
      (harryFamily.map (fun pr => specPersonFactor [0] [1] [0, 1] pr.1 pr.2)).prod :=
  c1_joint_is_product harryFamily (by decide) [0] [1] [0, 1]

/-
Summation toolkit for the hypothesis-space mass.
-/

/-- `sumMap` distributes over list append. -/
theorem sumMap_append {α : Type} (l₁ l₂ : List α) (f : α → ℚ) :
    sumMap (l₁ ++ l₂) f = sumMap l₁ f + sumMap l₂ f := by
  unfold sumMap
  rw [List.map_append, List.sum_append]

/-- `sumMap` over a mapped list. -/
theorem sumMap_map {α β : Type} (l : List α) (g : α → β) (f : β → ℚ) :
    sumMap (l.map g) f = sumMap l (fun a => f (g a)) := by
  unfold sumMap
  rw [List.map_map]
  rfl

/-- `sumMap` of a pointwise sum. -/
theorem sumMap_add {α : Type} (l : List α) (f g : α → ℚ) :
    sumMap l (fun a => f a + g a) = sumMap l f + sumMap l g := by
  induction l with
  | nil => simp [sumMap]
  | cons x xs ih =>
    unfold sumMap at *
    simp only [List.map_cons, List.sum_cons, ih]
    ring

/-- `sumMap` respects pointwise equality on the list. -/
theorem sumMap_congr {α : Type} {l : List α} {f g : α → ℚ} (h : ∀ a ∈ l, f a = g a) :
    sumMap l f = sumMap l g := by
  unfold sumMap
  rw [List.map_congr_left h]

/-- Constants pull out of `sumMap`. -/
theorem sumMap_mul_left {α : Type} (l : List α) (c : ℚ) (f : α → ℚ) :
    sumMap l (fun a => c * f a) = c * sumMap l f := by
  induction l with
  | nil => simp [sumMap]
  | cons x xs ih =>
    unfold sumMap at *
    simp only [List.map_cons, List.sum_cons, ih]
    ring

/-- `sumMap` over a flattened list of lists. -/
theorem sumMap_flatMap {α β : Type} (l : List α) (f : α → List β) (g : β → ℚ) :
    sumMap (l.flatMap f) g = sumMap l (fun a => sumMap (f a) g) := by
  induction l with
  | nil => simp [sumMap]
  | cons x xs ih =>
    rw [List.flatMap_cons, sumMap_append, ih]
    unfold sumMap
    rw [List.map_cons, List.sum_cons]

/-- A sum of positive contributions over a nonempty list is positive. -/
theorem sumMap_pos {α : Type} (l : List α) (f : α → ℚ) (h : ∀ a ∈ l, 0 < f a)
    (hne : l ≠ []) : 0 < sumMap l f := by
  induction l with
  | nil => exact absurd rfl hne
  | cons x xs ih =>
    unfold sumMap at *
    rw [List.map_cons, List.sum_cons]
    rcases xs with _ | ⟨y, ys⟩
    · simpa using h x (by simp)
    · have hx := h x (by simp)
      have hxs := ih (fun a ha => h a (by simp [ha])) (by simp)
      linarith

/-- A sum of non-negative contributions is non-negative. -/
theorem sumMap_nonneg {α : Type} (l : List α) (f : α → ℚ) (h : ∀ a ∈ l, 0 ≤ f a) :
    0 ≤ sumMap l f := by
  induction l with
  | nil => simp [sumMap]
  | cons x xs ih =>
    unfold sumMap at *
    rw [List.map_cons, List.sum_cons]
    have hx := h x (by simp)
    have hxs := ih (fun a ha => h a (by simp [ha]))
    linarith

/-- Splitting a sum over the powerset of `x :: xs` into the subsets without and
with `x`. -/
theorem sumMap_powerset_cons (x : Nat) (xs : List Nat) (F : List Nat → ℚ) :
    sumMap (powerset (x :: xs)) F =
      sumMap (powerset xs) F + sumMap (powerset xs) (fun S => F (x :: S)) := by
  show sumMap (powerset xs ++ (powerset xs).map (fun s => x :: s)) F = _
  rw [sumMap_append, sumMap_map]

/-- Members of a subset in the powerset are members of the base list. -/
theorem mem_powerset_subset :
    ∀ {l S : List Nat}, S ∈ powerset l → ∀ a ∈ S, a ∈ l := by
  intro l
  induction l with
  | nil =>
    intro S hS a haS
    simp only [powerset, List.mem_singleton] at hS
    subst hS
    simp at haS
  | cons x xs ih =>
    intro S hS a haS
    simp only [powerset, List.mem_append, List.mem_map] at hS
    rcases hS with h | ⟨S', hS', rfl⟩
    · exact List.mem_cons_of_mem x (ih h a haS)
    · rcases List.mem_cons.mp haS with h' | h'
      · rw [h']
        exact List.mem_cons_self _ _
      · exact List.mem_cons_of_mem x (ih hS' a h')

/-- Every sublist of `l` appears in `powerset l`. -/
theorem sublist_mem_powerset : ∀ {S l : List Nat}, S.Sublist l → S ∈ powerset l := by
  intro S l h
  induction h with
  | slnil => simp [powerset]
  | cons x hsub ih =>
    simp only [powerset, List.mem_append]
    exact Or.inl ih
  | cons₂ x hsub ih =>
    simp only [powerset, List.mem_append, List.mem_map]
    exact Or.inr ⟨_, ih, rfl⟩

/-- Membership is untouched by conditionally inserting a different name. -/
theorem mem_condCons (b : Bool) (x : Nat) (l : List Nat) (n : Nat) (hn : n ≠ x) :
    n ∈ condCons b x l ↔ n ∈ l := by
  cases b <;> simp [condCons, hn]

/-- The hypothesis's gene count of a person is untouched by inserting a
different name into either gene set. -/
theorem geneCount_condCons (b1 b2 : Bool) (x : Nat) (og tg : List Nat) (n : Nat)
    (hn : n ≠ x) :
    geneCount (condCons b1 x og) (condCons b2 x tg) n = geneCount og tg n := by
  unfold geneCount
  simp only [mem_condCons b1 x og n hn, mem_condCons b2 x tg n hn]

/-- `optMem` is untouched by conditionally inserting a name the option is not. -/
theorem optMem_condCons (b : Bool) (x : Nat) (l : List Nat) (o : Option Nat)
    (ho : o ≠ some x) : optMem o (condCons b x l) = optMem o l := by
  cases o with
  | none => simp [optMem]
  | some y =>
    have hy : y ≠ x := fun h => ho (by rw [h])
    cases b <;> simp [optMem, condCons, hy]

/-- A parent's pass probability is untouched by inserting a different name. -/
theorem passProb_condCons (b1 b2 : Bool) (x : Nat) (og tg : List Nat) (o : Option Nat)
    (ho : o ≠ some x) :
    passProb (condCons b1 x og) (condCons b2 x tg) o = passProb og tg o := by
  unfold passProb
  rw [optMem_condCons b2 x tg o ho, optMem_condCons b1 x og o ho]

/-- A person's whole factor is untouched by inserting, into any of the three
hypothesis sets, a name that is neither the person nor one of their parents. -/
theorem personFactor_condCons (b1 b2 b3 : Bool) (x : Nat) (og tg ht : List Nat)
    (n : Nat) (r : PersonRec) (hn : n ≠ x) (hm : r.mother ≠ some x)
    (hf : r.father ≠ some x) :
    personFactor (condCons b1 x og) (condCons b2 x tg) (condCons b3 x ht) n r =
      personFactor og tg ht n r := by
  unfold personFactor geneProbability
  simp only [geneCount_condCons b1 b2 x og tg n hn, passProb_condCons b1 b2 x og tg _ hm,
    passProb_condCons b1 b2 x og tg _ hf, mem_condCons b3 x ht n hn]

/-- A joint probability over persons not involving `x` is untouched by
inserting `x` into any of the three hypothesis sets. -/
theorem jointProbability_condCons (b1 b2 b3 : Bool) (x : Nat) (og tg ht : List Nat)
    (ps : People)
    (hps : ∀ pr ∈ ps, pr.1 ≠ x ∧ pr.2.mother ≠ some x ∧ pr.2.father ≠ some x) :
    jointProbability ps (condCons b1 x og) (condCons b2 x tg) (condCons b3 x ht) =
      jointProbability ps og tg ht := by
  rw [jointProbability_eq_prod, jointProbability_eq_prod]
  congr 1
  apply List.map_congr_left
  intro pr hpr
  exact personFactor_condCons b1 b2 b3 x og tg ht pr.1 pr.2 (hps pr hpr).1
    (hps pr hpr).2.1 (hps pr hpr).2.2

/-- `gene_probability` of a founder is the prior at the hypothesized count. -/
theorem geneProbability_founder (og tg : List Nat) (n : Nat) (r : PersonRec)
    (hm : r.mother = none) (hf : r.father = none) :
    geneProbability og tg n r = PROBSgene (geneCount og tg n) := by
  simp [geneProbability, hm, hf]

/-- `gene_probability` of a non-founder combines the two pass probabilities. -/
theorem geneProbability_nonfounder (og tg : List Nat) (n : Nat) (r : PersonRec)
    (h : ¬(r.mother = none ∧ r.father = none)) :
    geneProbability og tg n r =
      if geneCount og tg n = 2 then passProb og tg r.mother * passProb og tg r.father
      else if geneCount og tg n = 1 then
        passProb og tg r.mother * (1 - passProb og tg r.father) +
          (1 - passProb og tg r.mother) * passProb og tg r.father
      else (1 - passProb og tg r.mother) * (1 - passProb og tg r.father) := by
  simp [geneProbability, h]

/-- Summed over the six placements of a fresh person `m` across the three
hypothesis sets (gene count 0/1/2, trait in/out), `m`'s own factor totals 1. -/
theorem headSum6 (og tg ht : List Nat) (m : Nat) (r : PersonRec)
    (hog : m ∉ og) (htg : m ∉ tg) (hht : m ∉ ht)
    (hrm : r.mother ≠ some m) (hrf : r.father ≠ some m) :
    personFactor og tg ht m r + personFactor og (m :: tg) ht m r +
      personFactor (m :: og) tg ht m r + personFactor og tg (m :: ht) m r +
      personFactor og (m :: tg) (m :: ht) m r + personFactor (m :: og) tg (m :: ht) m r
      = 1 := by
  have hc0 : geneCount og tg m = 0 := by simp [geneCount, hog, htg]
  have hc2 : geneCount og (m :: tg) m = 2 := by simp [geneCount]
  have hc1 : geneCount (m :: og) tg m = 1 := by simp [geneCount, htg]
  have hdf : decide (m ∈ ht) = false := by simp [hht]
  have hdt : decide (m ∈ m :: ht) = true := by simp
  have hpm1 : passProb (m :: og) tg r.mother = passProb og tg r.mother := by
    have h := passProb_condCons true false m og tg r.mother hrm
    simpa [condCons] using h
  have hpm2 : passProb og (m :: tg) r.mother = passProb og tg r.mother := by
    have h := passProb_condCons false true m og tg r.mother hrm
    simpa [condCons] using h
  have hpf1 : passProb (m :: og) tg r.father = passProb og tg r.father := by
    have h := passProb_condCons true false m og tg r.father hrf
    simpa [condCons] using h
  have hpf2 : passProb og (m :: tg) r.father = passProb og tg r.father := by
    have h := passProb_condCons false true m og tg r.father hrf
    simpa [condCons] using h
  by_cases hfo : r.mother = none ∧ r.father = none
  · simp only [personFactor, geneProbability_founder _ _ _ _ hfo.1 hfo.2,
      hc0, hc1, hc2, hdt, hdf]
    norm_num [PROBSgene, PROBStrait]
  · simp only [personFactor, geneProbability_nonfounder _ _ _ _ hfo,
      hc0, hc1, hc2, hdt, hdf, hpm1, hpm2, hpf1, hpf2]
    norm_num [PROBStrait]
    ring

/-- Splitting the innermost sum of the weighted mass at a fresh head name that
is not in `one_gene`. -/
theorem wTG_cons_notmem (m : Nat) (r : PersonRec) (ps : People) (ms : List Nat)
    (φ : List Nat → List Nat → ℚ) (og ht : List Nat) (hog : m ∉ og) :
    wTG ((m, r) :: ps) φ (m :: ms) og ht =
      sumMap (powerset (ms.filter (fun x => decide (x ∉ og)))) (fun tg =>
        φ og tg * jointProbability ((m, r) :: ps) og tg ht +
          φ og (m :: tg) * jointProbability ((m, r) :: ps) og (m :: tg) ht) := by
  unfold wTG
  rw [List.filter_cons, if_pos (decide_eq_true hog), sumMap_powerset_cons, ← sumMap_add]

/-- Splitting the innermost sum of the weighted mass at a fresh head name that
is in `one_gene`. -/
theorem wTG_cons_mem (m : Nat) (r : PersonRec) (ps : People) (ms : List Nat)
    (φ : List Nat → List Nat → ℚ) (og ht : List Nat) (hms : m ∉ ms) :
    wTG ((m, r) :: ps) φ (m :: ms) (m :: og) ht =
      sumMap (powerset (ms.filter (fun x => decide (x ∉ og)))) (fun tg =>
        φ (m :: og) tg * jointProbability ((m, r) :: ps) (m :: og) tg ht) := by
  unfold wTG
  rw [List.filter_cons, if_neg (by simp)]
  rw [List.filter_congr (fun a ha => ?_)]
  have ham : a ≠ m := fun hc => hms (hc ▸ ha)
  simp [List.mem_cons, ham]

/-- Splitting the one-gene level of the weighted mass at a fresh head name. -/
theorem wOG_cons (m : Nat) (r : PersonRec) (ps : People) (ms : List Nat)
    (φ : List Nat → List Nat → ℚ) (ht : List Nat) (hms : m ∉ ms) :
    wOG ((m, r) :: ps) φ (m :: ms) ht =
      sumMap (powerset ms) (fun og =>
        sumMap (powerset (ms.filter (fun x => decide (x ∉ og)))) (fun tg =>
          φ og tg * jointProbability ((m, r) :: ps) og tg ht +
            φ og (m :: tg) * jointProbability ((m, r) :: ps) og (m :: tg) ht +
            φ (m :: og) tg * jointProbability ((m, r) :: ps) (m :: og) tg ht)) := by
  unfold wOG
  rw [sumMap_powerset_cons, ← sumMap_add]
  apply sumMap_congr
  intro og hog
  have hmog : m ∉ og := fun hc => hms (mem_powerset_subset hog m hc)
  rw [wTG_cons_notmem m r ps ms φ og ht hmog, wTG_cons_mem m r ps ms φ og ht hms,
    ← sumMap_add]

/-- Peeling the head person off the weighted mass: if the head's six placements
pointwise contract to `c` times a new weight on the tail, the whole weighted
mass contracts the same way. -/
theorem massOverW_cons (m : Nat) (r : PersonRec) (ps : People) (ms : List Nat)
    (φ φ' : List Nat → List Nat → ℚ) (c : ℚ) (hms : m ∉ ms)
    (hpoint : ∀ og tg ht, m ∉ og → m ∉ tg → m ∉ ht →
      φ og tg * jointProbability ((m, r) :: ps) og tg ht +
        φ og (m :: tg) * jointProbability ((m, r) :: ps) og (m :: tg) ht +
        φ (m :: og) tg * jointProbability ((m, r) :: ps) (m :: og) tg ht +
        (φ og tg * jointProbability ((m, r) :: ps) og tg (m :: ht) +
          φ og (m :: tg) * jointProbability ((m, r) :: ps) og (m :: tg) (m :: ht) +
          φ (m :: og) tg * jointProbability ((m, r) :: ps) (m :: og) tg (m :: ht)) =
        c * (φ' og tg * jointProbability ps og tg ht)) :
    massOverW ((m, r) :: ps) (m :: ms) φ = c * massOverW ps ms φ' := by
  have key : ∀ ht, m ∉ ht →
      wOG ((m, r) :: ps) φ (m :: ms) ht + wOG ((m, r) :: ps) φ (m :: ms) (m :: ht) =
        c * wOG ps φ' ms ht := by
    intro ht hht
    rw [wOG_cons m r ps ms φ ht hms, wOG_cons m r ps ms φ (m :: ht) hms, ← sumMap_add]
    unfold wOG
    rw [← sumMap_mul_left]
    apply sumMap_congr
    intro og hog
    have hmog : m ∉ og := fun hc => hms (mem_powerset_subset hog m hc)
    rw [← sumMap_add]
    unfold wTG
    rw [← sumMap_mul_left]
    apply sumMap_congr
    intro tg htg
    have hmtg : m ∉ tg := fun hc =>
      hms (List.mem_of_mem_filter (mem_powerset_subset htg m hc))
    have hp := hpoint og tg ht hmog hmtg hht
    linarith
  unfold massOverW
  rw [sumMap_powerset_cons, ← sumMap_add, ← sumMap_mul_left]
  apply sumMap_congr
  intro ht hht
  have hmht : m ∉ ht := fun hc => hms (mem_powerset_subset hht m hc)
  exact key ht hmht

/-- Peeling the head person with a weight that ignores the head name: the
weighted mass is unchanged. -/
theorem massOverW_cons_inv (m : Nat) (r : PersonRec) (ps : People) (ms : List Nat)
    (φ : List Nat → List Nat → ℚ) (hms : m ∉ ms)
    (hps : ∀ pr ∈ ps, pr.1 ≠ m ∧ pr.2.mother ≠ some m ∧ pr.2.father ≠ some m)
    (hrm : r.mother ≠ some m) (hrf : r.father ≠ some m)
    (hφ : ∀ og tg (b1 b2 : Bool), φ (condCons b1 m og) (condCons b2 m tg) = φ og tg) :
    massOverW ((m, r) :: ps) (m :: ms) φ = massOverW ps ms φ := by
  have h := massOverW_cons m r ps ms φ φ 1 hms ?_
  · simpa using h
  intro og tg ht hog htg hht
  have e1 : φ og (m :: tg) = φ og tg := by
    have h' := hφ og tg false true
    simpa [condCons] using h'
  have e2 : φ (m :: og) tg = φ og tg := by
    have h' := hφ og tg true false
    simpa [condCons] using h'
  have j1 : jointProbability ps og (m :: tg) ht = jointProbability ps og tg ht := by
    have h' := jointProbability_condCons false true false m og tg ht ps hps
    simpa [condCons] using h'
  have j2 : jointProbability ps (m :: og) tg ht = jointProbability ps og tg ht := by
    have h' := jointProbability_condCons true false false m og tg ht ps hps
    simpa [condCons] using h'
  have j3 : jointProbability ps og tg (m :: ht) = jointProbability ps og tg ht := by
    have h' := jointProbability_condCons false false true m og tg ht ps hps
    simpa [condCons] using h'
  have j4 : jointProbability ps og (m :: tg) (m :: ht) = jointProbability ps og tg ht := by
    have h' := jointProbability_condCons false true true m og tg ht ps hps
    simpa [condCons] using h'
  have j5 : jointProbability ps (m :: og) tg (m :: ht) = jointProbability ps og tg ht := by
    have h' := jointProbability_condCons true false true m og tg ht ps hps
    simpa [condCons] using h'
  simp only [jointProbability_cons (m, r) ps, e1, e2, j1, j2, j3, j4, j5]
  have h6 := headSum6 og tg ht m r hog htg hht hrm hrf
  linear_combination (φ og tg * jointProbability ps og tg ht) * h6

/-- Peeling a founder head person with the weight that selects the head's own
gene count `g`: the weighted mass contracts to `genePrior[g]` times the plain
mass of the tail. -/
theorem massOverW_cons_founder (f : Nat) (rf : PersonRec) (ps : People) (ms : List Nat)
    (g : Nat) (hms : f ∉ ms)
    (hps : ∀ pr ∈ ps, pr.1 ≠ f ∧ pr.2.mother ≠ some f ∧ pr.2.father ≠ some f)
    (hmo : rf.mother = none) (hfa : rf.father = none) (hg : g < 3) :
    massOverW ((f, rf) :: ps) (f :: ms)
        (fun og tg => if geneCount og tg f = g then (1 : ℚ) else 0) =
      PROBSgene g * massOverW ps ms (fun _ _ => 1) := by
  apply massOverW_cons f rf ps ms _ _ _ hms
  intro og tg ht hog htg hht
  have hc0 : geneCount og tg f = 0 := by simp [geneCount, hog, htg]
  have hc2 : geneCount og (f :: tg) f = 2 := by simp [geneCount]
  have hc1 : geneCount (f :: og) tg f = 1 := by simp [geneCount, htg]
  have hdf : decide (f ∈ ht) = false := by simp [hht]
  have hdt : decide (f ∈ f :: ht) = true := by simp
  have hrm : rf.mother ≠ some f := by rw [hmo]; simp
  have hrf' : rf.father ≠ some f := by rw [hfa]; simp
  have j1 : jointProbability ps og (f :: tg) ht = jointProbability ps og tg ht := by
    have h' := jointProbability_condCons false true false f og tg ht ps hps
    simpa [condCons] using h'
  have j2 : jointProbability ps (f :: og) tg ht = jointProbability ps og tg ht := by
    have h' := jointProbability_condCons true false false f og tg ht ps hps
    simpa [condCons] using h'
  have j3 : jointProbability ps og tg (f :: ht) = jointProbability ps og tg ht := by
    have h' := jointProbability_condCons false false true f og tg ht ps hps
    simpa [condCons] using h'
  have j4 : jointProbability ps og (f :: tg) (f :: ht) = jointProbability ps og tg ht := by
    have h' := jointProbability_condCons false true true f og tg ht ps hps
    simpa [condCons] using h'
  have j5 : jointProbability ps (f :: og) tg (f :: ht) = jointProbability ps og tg ht := by
    have h' := jointProbability_condCons true false true f og tg ht ps hps
    simpa [condCons] using h'
  simp only [jointProbability_cons (f, rf) ps, j1, j2, j3, j4, j5, personFactor,
    geneProbability_founder _ _ _ _ hmo hfa, hc0, hc1, hc2, hdt, hdf]
  interval_cases g <;> norm_num [PROBSgene, PROBStrait] <;> ring

/-- The unweighted hypothesis-space mass of an acyclic nodup family is 1. -/
theorem massOverW_one : ∀ ps : People, (pnames ps).Nodup → childrenFirstB ps = true →
    massOverW ps (pnames ps) (fun _ _ => (1 : ℚ)) = 1
  | [], _, _ => by
    simp [massOverW, wOG, wTG, sumMap, powerset, pnames, jointProbability, List.filter]
  | (m, r) :: ps, hnd, hcf => by
    have hms : m ∉ pnames ps := by
      have h := List.nodup_cons.mp hnd
      exact h.1
    have hnd' : (pnames ps).Nodup := (List.nodup_cons.mp hnd).2
    simp only [childrenFirstB, Bool.and_eq_true, List.all_eq_true] at hcf
    obtain ⟨hall, hcf'⟩ := hcf
    have hhead := hall (m, r) (by simp)
    simp only [Bool.and_eq_true, decide_eq_true_eq] at hhead
    have hps : ∀ pr ∈ ps, pr.1 ≠ m ∧ pr.2.mother ≠ some m ∧ pr.2.father ≠ some m := by
      intro pr hpr
      have hq := hall pr (by simp [hpr])
      simp only [Bool.and_eq_true, decide_eq_true_eq] at hq
      refine ⟨fun hc => hms ?_, hq.1, hq.2⟩
      rw [← hc]
      exact List.mem_map_of_mem Prod.fst hpr
    have hstep := massOverW_cons_inv m r ps (pnames ps) (fun _ _ => 1) hms hps
      hhead.1 hhead.2 (fun _ _ _ _ => rfl)
    show massOverW ((m, r) :: ps) (m :: pnames ps) (fun _ _ => 1) = 1
    rw [hstep]
    exact massOverW_one ps hnd' hcf'

/-- The gene-count-`g` slice of the hypothesis-space mass of a founder is
exactly `genePrior[g]`, on an acyclic nodup family. -/
theorem massOverW_founder_slice :
    ∀ (ps : People) (f : Nat) (rf : PersonRec) (g : Nat), (pnames ps).Nodup →
      childrenFirstB ps = true → (f, rf) ∈ ps → rf.mother = none → rf.father = none →
      g < 3 →
      massOverW ps (pnames ps) (fun og tg => if geneCount og tg f = g then (1 : ℚ) else 0) =
        PROBSgene g
  | [], f, rf, g, _, _, hmem, _, _, _ => by simp at hmem
  | (m, r) :: ps, f, rf, g, hnd, hcf, hmem, hmo, hfa, hg => by
    have hms : m ∉ pnames ps := (List.nodup_cons.mp hnd).1
    have hnd' : (pnames ps).Nodup := (List.nodup_cons.mp hnd).2
    simp only [childrenFirstB, Bool.and_eq_true, List.all_eq_true] at hcf
    obtain ⟨hall, hcf'⟩ := hcf
    have hhead := hall (m, r) (by simp)
    simp only [Bool.and_eq_true, decide_eq_true_eq] at hhead
    have hps : ∀ pr ∈ ps, pr.1 ≠ m ∧ pr.2.mother ≠ some m ∧ pr.2.father ≠ some m := by
      intro pr hpr
      have hq := hall pr (by simp [hpr])
      simp only [Bool.and_eq_true, decide_eq_true_eq] at hq
      refine ⟨fun hc => hms ?_, hq.1, hq.2⟩
      rw [← hc]
      exact List.mem_map_of_mem Prod.fst hpr
    rcases List.mem_cons.mp hmem with heq | hmem'
    · have hfm : f = m := congrArg Prod.fst heq
      have hrr : rf = r := congrArg Prod.snd heq
      subst hfm
      subst hrr
      show massOverW ((f, rf) :: ps) (f :: pnames ps) _ = PROBSgene g
      rw [massOverW_cons_founder f rf ps (pnames ps) g hms hps hmo hfa hg]
      rw [massOverW_one ps hnd' hcf']
      ring
    · have hfm : f ≠ m := by
        intro hc
        apply hms
        rw [← hc]
        exact List.mem_map_of_mem Prod.fst hmem'
      show massOverW ((m, r) :: ps) (m :: pnames ps) _ = PROBSgene g
      rw [massOverW_cons_inv m r ps (pnames ps) _ hms hps hhead.1 hhead.2
        (fun og tg b1 b2 => by rw [geneCount_condCons b1 b2 m og tg f hfm])]
      exact massOverW_founder_slice ps f rf g hnd' hcf' hmem' hmo hfa hg

/-- `totalMass` is the weighted mass with the constant weight 1. -/
theorem totalMass_eq_massOverW (people : People) :
    totalMass people = massOverW people (pnames people) (fun _ _ => 1) := by
  unfold totalMass massOverW wOG wTG
  simp only [one_mul]

/-- Claim C3, counterexample: the one-person graph in which the person is their
own mother and father satisfies C3's notion of validity (two parents present in
the graph) yet the unfiltered hypothesis-space mass is 2.4602, not 1. -/
theorem c3_counterexample :
    validGraphB [(0, ⟨some 0, some 0, none⟩)] = true ∧
      totalMass [(0, ⟨some 0, some 0, none⟩)] ≠ 1 := by
  constructor
  · decide
  · norm_num [totalMass, sumMap, powerset, pnames, jointProbability, personFactor,
      geneProbability, geneCount, passProb, optMem, PROBSgene, PROBStrait, PROBSmutation,
      Option.some_ne_none]

/-- Claim C3, amended: for every valid family graph (every person a founder or
with two parents present), with distinct names and listed so that every person
precedes their parents (such an ordering exists exactly when the graph is
acyclic), the sum of `joint_probability` over the entire unfiltered hypothesis
space — all 3^n gene assignments crossed with all 2^n trait subsets, ignoring
evidence — equals 1. -/
theorem c3_total_mass_one (people : People) (hv : validGraphB people = true)
    (hnd : (pnames people).Nodup) (hcf : childrenFirstB people = true) :
    totalMass people = 1 := by
  rw [totalMass_eq_massOverW]
  exact massOverW_one people hnd hcf

/-- Witness for C3 at the three-person example family. -/
theorem c3_witness : totalMass harryFamily = 1 :=
  c3_total_mass_one harryFamily (by decide) (by decide) (by decide)

/-
From the accumulation loop to bucket sums.
-/

/-- `sumMap` over a cons. -/
theorem sumMap_cons {α : Type} (x : α) (xs : List α) (f : α → ℚ) :
    sumMap (x :: xs) f = f x + sumMap xs f := by
  unfold sumMap
  rw [List.map_cons, List.sum_cons]

/-- Adding an all-zero contribution changes nothing. -/
theorem addDist_zero (d : PDist) : addDist d PDist.zero = d := by
  cases d
  simp [addDist, PDist.zero]

/-- A zero base plus a contribution is the contribution. -/
theorem zero_addDist (d : PDist) : addDist PDist.zero d = d := by
  cases d
  simp [addDist, PDist.zero]

/-- An empty hypothesis list contributes zero to every bucket. -/
theorem contribDist_nil (people : People) (n : Nat) :
    contribDist people [] n = PDist.zero := rfl

/-- One more hypothesis adds its bucket contribution in front. -/
theorem contribDist_cons (people : People) (h : List Nat × List Nat × List Nat)
    (hyps : List (List Nat × List Nat × List Nat)) (n : Nat) :
    contribDist people (h :: hyps) n =
      addDist (updateDist h.1 h.2.1 h.2.2 (jointProbability people h.1 h.2.1 h.2.2) n
          PDist.zero)
        (contribDist people hyps n) := by
  unfold contribDist addDist updateDist PDist.zero
  simp only [sumMap_cons, PDist.mk.injEq, decide_eq_true_eq]
  exact ⟨by ring, by ring, by ring, by ring, by ring⟩

/-- The accumulation loop equals a per-person bucketwise sum of contributions. -/
theorem runHyps_eq (people : People) :
    ∀ (hyps : List (List Nat × List Nat × List Nat)) (probs : List (Nat × PDist)),
      runHyps people hyps probs =
        probs.map (fun nd => (nd.1, addDist nd.2 (contribDist people hyps nd.1)))
  | [], probs => by
    simp only [runHyps, List.foldl_nil, contribDist_nil, addDist_zero]
    rw [show (fun nd : Nat × PDist => (nd.1, nd.2)) = id from funext fun nd => by simp]
    rw [List.map_id]
  | h :: hyps, probs => by
    show runHyps people hyps
        (update probs h.1 h.2.1 h.2.2 (jointProbability people h.1 h.2.1 h.2.2)) = _
    rw [runHyps_eq people hyps
      (update probs h.1 h.2.1 h.2.2 (jointProbability people h.1 h.2.1 h.2.2))]
    unfold update
    rw [List.map_map]
    apply List.map_congr_left
    intro nd _
    simp only [Function.comp]
    congr 1
    rw [contribDist_cons]
    unfold addDist updateDist PDist.zero
    simp only [PDist.mk.injEq, decide_eq_true_eq]
    exact ⟨by ring, by ring, by ring, by ring, by ring⟩

/-- The accumulator that reaches `normalize`, bucket by bucket. -/
theorem mainProbabilities_eq (people : People) :
    mainProbabilities people =
      people.map (fun pr => (pr.1, contribDist people (hypothesesList people) pr.1)) := by
  unfold mainProbabilities initProbabilities
  rw [runHyps_eq]
  rw [List.map_map]
  apply List.map_congr_left
  intro pr _
  simp only [Function.comp]
  rw [zero_addDist]

/-- With no trait evidence anywhere, no trait subset fails the filter. -/
theorem failsEvidence_of_noEvidence (people : People) (hne : noEvidenceB people = true)
    (ht : List Nat) : failsEvidence people ht = false := by
  unfold failsEvidence
  rw [List.any_eq_false]
  intro pr hpr
  have h := List.all_eq_true.mp hne pr hpr
  simp only [decide_eq_true_eq] at h
  simp [h]

/-- With no evidence, `main` evaluates the full unfiltered hypothesis space. -/
theorem hypothesesList_of_noEvidence (people : People) (hne : noEvidenceB people = true) :
    hypothesesList people =
      (powerset (pnames people)).flatMap (fun ht =>
        (powerset (pnames people)).flatMap (fun og =>
          (powerset ((pnames people).filter (fun x => decide (x ∉ og)))).map
            (fun tg => (og, tg, ht)))) := by
  unfold hypothesesList
  congr 1
  apply List.filter_eq_self.mpr
  intro ht _
  simp [failsEvidence_of_noEvidence people hne ht]

/-- With no evidence, a weighted sum over the evaluated hypotheses is the
weighted hypothesis-space mass. -/
theorem sumMap_hyps_massOverW (people : People) (hne : noEvidenceB people = true)
    (φ : List Nat → List Nat → ℚ) :
    sumMap (hypothesesList people) (fun h =>
      φ h.1 h.2.1 * jointProbability people h.1 h.2.1 h.2.2) =
    massOverW people (pnames people) φ := by
  rw [hypothesesList_of_noEvidence people hne, sumMap_flatMap]
  unfold massOverW
  apply sumMap_congr
  intro ht _
  rw [sumMap_flatMap]
  unfold wOG
  apply sumMap_congr
  intro og _
  rw [sumMap_map]
  unfold wTG
  rfl

/-- Keeping only the joint probability where a condition holds is weighting by
its indicator. -/
theorem ite_eq_indicator_mul (c : Prop) [Decidable c] (x : ℚ) :
    (if c then x else 0) = (if c then (1 : ℚ) else 0) * x := by
  split <;> simp

/-- With no evidence, one gene bucket of the accumulated contribution is the
indicator-weighted mass. -/
theorem contrib_gene_slice (people : People) (hne : noEvidenceB people = true)
    (n g : Nat) :
    sumMap (hypothesesList people) (fun h =>
      if geneCount h.1 h.2.1 n = g then jointProbability people h.1 h.2.1 h.2.2 else 0) =
    massOverW people (pnames people)
      (fun og tg => if geneCount og tg n = g then 1 else 0) := by
  rw [← sumMap_hyps_massOverW people hne]
  apply sumMap_congr
  intro h _
  exact ite_eq_indicator_mul _ _

/-- With no evidence, the sum of all joint probabilities the loop accumulates
is the unweighted hypothesis-space mass. -/
theorem contrib_total (people : People) (hne : noEvidenceB people = true) :
    sumMap (hypothesesList people) (fun h => jointProbability people h.1 h.2.1 h.2.2) =
      massOverW people (pnames people) (fun _ _ => 1) := by
  rw [← sumMap_hyps_massOverW people hne]
  apply sumMap_congr
  intro h _
  rw [one_mul]

/-- A person's accumulated gene buckets sum to the total accumulated mass
(each hypothesis lands in exactly one gene bucket). -/
theorem geneSum_contrib (people : People)
    (hyps : List (List Nat × List Nat × List Nat)) (n : Nat) :
    geneSum (contribDist people hyps n) =
      sumMap hyps (fun h => jointProbability people h.1 h.2.1 h.2.2) := by
  unfold geneSum contribDist
  rw [← sumMap_add, ← sumMap_add]
  apply sumMap_congr
  intro h _
  rcases geneCount_cases h.1 h.2.1 n with hc | hc | hc <;> simp [hc]

/-- A person's accumulated trait buckets sum to the total accumulated mass. -/
theorem traitSum_contrib (people : People)
    (hyps : List (List Nat × List Nat × List Nat)) (n : Nat) :
    traitSum (contribDist people hyps n) =
      sumMap hyps (fun h => jointProbability people h.1 h.2.1 h.2.2) := by
  unfold traitSum contribDist
  rw [← sumMap_add]
  apply sumMap_congr
  intro h _
  by_cases hmem : n ∈ h.2.2 <;> simp [hmem]

/-- Looking a person up in a name-keyed map of the family. -/
theorem lookup_map_name (F : Nat → PDist) :
    ∀ (people : People) (f : Nat) (rf : PersonRec), (f, rf) ∈ people →
      (people.map (fun pr => (pr.1, F pr.1))).lookup f = some (F f)
  | [], f, rf, hmem => by simp at hmem
  | (m, r) :: ps, f, rf, hmem => by
    by_cases hfm : f = m
    · subst hfm
      simp [List.lookup]
    · have hmem' : (f, rf) ∈ ps := by
        rcases List.mem_cons.mp hmem with heq | h'
        · exact absurd (congrArg Prod.fst heq) hfm
        · exact h'
      have hbeq : (f == m) = false := by simp [hfm]
      simp only [List.map_cons, List.lookup, hbeq]
      exact lookup_map_name F ps f rf hmem'

/-- Claim C6: for a founder with unknown trait in an acyclic nodup family graph
with no trait evidence at all, the gene marginal produced by the full pipeline
(enumeration, filtering, accumulation, normalization) is exactly the
unconditional gene prior (0.96, 0.03, 0.01 for 0, 1, 2 copies). -/
theorem c6_founder_prior (people : People) (f : Nat) (rf : PersonRec)
    (hnd : (pnames people).Nodup) (hcf : childrenFirstB people = true)
    (hne : noEvidenceB people = true) (hmem : (f, rf) ∈ people)
    (hmo : rf.mother = none) (hfa : rf.father = none) :
    ∃ out d, runProgram people = some out ∧ out.lookup f = some d ∧
      d.gene0 = PROBSgene 0 ∧ d.gene1 = PROBSgene 1 ∧ d.gene2 = PROBSgene 2 := by
  have htot : sumMap (hypothesesList people)
      (fun h => jointProbability people h.1 h.2.1 h.2.2) = 1 := by
    rw [contrib_total people hne]
    exact massOverW_one people hnd hcf
  have hgs : ∀ n, geneSum (contribDist people (hypothesesList people) n) = 1 := fun n => by
    rw [geneSum_contrib]
    exact htot
  have hts : ∀ n, traitSum (contribDist people (hypothesesList people) n) = 1 := fun n => by
    rw [traitSum_contrib]
    exact htot
  have hslice : ∀ g, g < 3 →
      massOverW people (pnames people)
        (fun og tg => if geneCount og tg f = g then (1 : ℚ) else 0) = PROBSgene g :=
    fun g hg => massOverW_founder_slice people f rf g hnd hcf hmem hmo hfa hg
  have hmain := mainProbabilities_eq people
  have hnorm : runProgram people =
      some ((mainProbabilities people).map (fun pr => (pr.1, scaleDist pr.2))) := by
    unfold runProgram
    apply normalizeProbs_all_some
    intro pr hpr
    rw [hmain] at hpr
    obtain ⟨q, hq, rfl⟩ := List.mem_map.mp hpr
    exact normalizeDist_of_ne _ (by rw [hgs]; norm_num) (by rw [hts]; norm_num)
  refine ⟨_, scaleDist (contribDist people (hypothesesList people) f), hnorm, ?_, ?_, ?_, ?_⟩
  · rw [hmain, List.map_map]
    rw [show ((fun pr : Nat × PDist => (pr.1, scaleDist pr.2)) ∘
        (fun pr : Nat × PersonRec =>
          (pr.1, contribDist people (hypothesesList people) pr.1))) =
        (fun pr : Nat × PersonRec =>
          (pr.1, scaleDist (contribDist people (hypothesesList people) pr.1))) from rfl]
    exact lookup_map_name
      (fun n => scaleDist (contribDist people (hypothesesList people) n)) people f rf hmem
  · show (contribDist people (hypothesesList people) f).gene0 /
        geneSum (contribDist people (hypothesesList people) f) = PROBSgene 0
    rw [hgs f, div_one]
    show sumMap (hypothesesList people) (fun h =>
      if geneCount h.1 h.2.1 f = 0 then jointProbability people h.1 h.2.1 h.2.2 else 0) =
        PROBSgene 0
    rw [contrib_gene_slice people hne f 0]
    exact hslice 0 (by norm_num)
  · show (contribDist people (hypothesesList people) f).gene1 /
        geneSum (contribDist people (hypothesesList people) f) = PROBSgene 1
    rw [hgs f, div_one]
    show sumMap (hypothesesList people) (fun h =>
      if geneCount h.1 h.2.1 f = 1 then jointProbability people h.1 h.2.1 h.2.2 else 0) =
        PROBSgene 1
    rw [contrib_gene_slice people hne f 1]
    exact hslice 1 (by norm_num)
  · show (contribDist people (hypothesesList people) f).gene2 /
        geneSum (contribDist people (hypothesesList people) f) = PROBSgene 2
    rw [hgs f, div_one]
    show sumMap (hypothesesList people) (fun h =>
      if geneCount h.1 h.2.1 f = 2 then jointProbability people h.1 h.2.1 h.2.2 else 0) =
        PROBSgene 2
    rw [contrib_gene_slice people hne f 2]
    exact hslice 2 (by norm_num)

/-- The example family with all traits unknown (Harry child of Lily and James). -/
def noEvFamily : People :=
  [(0, ⟨some 2, some 1, none⟩), (1, ⟨none, none, none⟩), (2, ⟨none, none, none⟩)]

/-- Witness for C6: founder James of the no-evidence family gets the prior. -/
theorem c6_witness :
    ∃ out d, runProgram noEvFamily = some out ∧ out.lookup 1 = some d ∧
      d.gene0 = PROBSgene 0 ∧ d.gene1 = PROBSgene 1 ∧ d.gene2 = PROBSgene 2 :=
  c6_founder_prior noEvFamily 1 ⟨none, none, none⟩ (by decide) (by decide) (by decide)
    (by decide) rfl rfl

/-- Pass probabilities are strictly between 0 and 1. -/
theorem passProb_bounds (og tg : List Nat) (o : Option Nat) :
    0 < passProb og tg o ∧ passProb og tg o < 1 := by
  unfold passProb PROBSmutation
  split
  · norm_num
  split
  · norm_num
  · norm_num

/-- The trait table is strictly positive at the counts a hypothesis produces. -/
theorem PROBStrait_geneCount_pos (og tg : List Nat) (n : Nat) (b : Bool) :
    0 < PROBStrait (geneCount og tg n) b := by
  rcases geneCount_cases og tg n with hc | hc | hc <;> rw [hc] <;> cases b <;>
    norm_num [PROBStrait]

/-- Every person's factor is strictly positive. -/
theorem personFactor_pos (og tg ht : List Nat) (n : Nat) (r : PersonRec) :
    0 < personFactor og tg ht n r := by
  unfold personFactor
  apply mul_pos _ (PROBStrait_geneCount_pos og tg n _)
  by_cases hfo : r.mother = none ∧ r.father = none
  · rw [geneProbability_founder og tg n r hfo.1 hfo.2]
    rcases geneCount_cases og tg n with hc | hc | hc <;> rw [hc] <;> norm_num [PROBSgene]
  · rw [geneProbability_nonfounder og tg n r hfo]
    obtain ⟨hm0, hm1⟩ := passProb_bounds og tg r.mother
    obtain ⟨hf0, hf1⟩ := passProb_bounds og tg r.father
    split
    · exact mul_pos hm0 hf0
    split
    · have h1 := mul_pos hm0 (by linarith : (0 : ℚ) < 1 - passProb og tg r.father)
      have h2 := mul_pos (by linarith : (0 : ℚ) < 1 - passProb og tg r.mother) hf0
      linarith
    · exact mul_pos (by linarith) (by linarith)

/-- Every joint probability is strictly positive. -/
theorem jointProbability_pos (people : People) (og tg ht : List Nat) :
    0 < jointProbability people og tg ht := by
  rw [jointProbability_eq_prod]
  apply List.prod_pos
  intro x hx
  obtain ⟨pr, hpr, rfl⟩ := List.mem_map.mp hx
  exact personFactor_pos og tg ht pr.1 pr.2

/-- The trait subset that matches all observed traits exactly: the names whose
trait is observed true, in list order. -/
def trueTraitNames (people : People) : List Nat :=
  (people.filter (fun pr => decide (pr.2.trait = some true))).map Prod.fst

/-- In a nodup-keyed family, a name determines its record. -/
theorem assoc_unique : ∀ (people : People), (pnames people).Nodup →
    ∀ (a : Nat) (x y : PersonRec), (a, x) ∈ people → (a, y) ∈ people → x = y
  | [], _, a, x, y, hx, _ => by simp at hx
  | (m, r) :: ps, hnd, a, x, y, hx, hy => by
    have hms : m ∉ pnames ps := (List.nodup_cons.mp hnd).1
    rcases List.mem_cons.mp hx with hex | hx' <;> rcases List.mem_cons.mp hy with hey | hy'
    · rw [show x = r from congrArg Prod.snd hex, show y = r from congrArg Prod.snd hey]
    · have ham : a = m := congrArg Prod.fst hex
      have hmm : a ∈ pnames ps := List.mem_map_of_mem Prod.fst hy'
      rw [ham] at hmm
      exact absurd hmm hms
    · have ham : a = m := congrArg Prod.fst hey
      have hmm : a ∈ pnames ps := List.mem_map_of_mem Prod.fst hx'
      rw [ham] at hmm
      exact absurd hmm hms
    · exact assoc_unique ps (List.nodup_cons.mp hnd).2 a x y hx' hy'

/-- The matching trait subset survives the evidence filter. -/
theorem failsEvidence_trueTraitNames (people : People) (hnd : (pnames people).Nodup) :
    failsEvidence people (trueTraitNames people) = false := by
  unfold failsEvidence
  rw [List.any_eq_false]
  intro pr hpr
  rcases htr : pr.2.trait with _ | b
  · simp [htr]
  · have hiff : pr.1 ∈ trueTraitNames people ↔ b = true := by
      constructor
      · intro hmem
        obtain ⟨q, hq, hq1⟩ := List.mem_map.mp hmem
        have hqf := List.mem_filter.mp hq
        have hqt : q.2.trait = some true := by simpa using hqf.2
        have hqp : (pr.1, q.2) ∈ people := by
          rw [← hq1]
          exact hqf.1
        have heq : q.2 = pr.2 := assoc_unique people hnd pr.1 q.2 pr.2 hqp hpr
        rw [heq, htr] at hqt
        simpa using hqt
      · intro hb
        apply List.mem_map_of_mem Prod.fst
        apply List.mem_filter.mpr
        refine ⟨hpr, ?_⟩
        simp [htr, hb]
    cases b
    · have hnm : pr.1 ∉ trueTraitNames people := fun hc => by simpa using hiff.mp hc
      simp [hnm]
    · have hm : pr.1 ∈ trueTraitNames people := hiff.mpr rfl
      simp [hm]

/-- The loop always evaluates at least one hypothesis: the trait subset of
observed-true names survives the filter, and the empty gene subsets exist. -/
theorem hypothesesList_ne_nil (people : People) (hnd : (pnames people).Nodup) :
    hypothesesList people ≠ [] := by
  have hS : trueTraitNames people ∈
      (powerset (pnames people)).filter (fun ht => !failsEvidence people ht) := by
    rw [List.mem_filter]
    constructor
    · exact sublist_mem_powerset (List.Sublist.map Prod.fst (List.filter_sublist people))
    · simp [failsEvidence_trueTraitNames people hnd]
  have hmem : (([] : List Nat), ([] : List Nat), trueTraitNames people) ∈
      hypothesesList people := by
    unfold hypothesesList
    rw [List.mem_flatMap]
    refine ⟨trueTraitNames people, hS, ?_⟩
    rw [List.mem_flatMap]
    refine ⟨[], sublist_mem_powerset (List.nil_sublist _), ?_⟩
    rw [List.mem_map]
    exact ⟨[], sublist_mem_powerset (List.nil_sublist _), rfl⟩
  exact List.ne_nil_of_mem hmem

/-- The malformed one-person graph: both recorded parents name the absent
person 1. -/
def malformedFam : People := [(0, ⟨some 1, some 1, none⟩)]

/-- Claim C9, counterexample: this graph is malformed (references a parent name
absent from the person set), yet the program performs no construction-time
validation: it runs the whole pipeline and produces a normalized output
instead of rejecting before enumeration. -/
theorem c9_counterexample :
    validGraphB malformedFam = false ∧
      runProgram malformedFam =
        some [(0, ⟨1/10000, 99/5000, 9801/10000, 10477/500000, 489523/500000⟩)] := by
  constructor
  · decide
  · norm_num [malformedFam, runProgram, mainProbabilities, hypothesesList, runHyps, update,
      updateDist, initProbabilities, normalizeProbs, normalizeDist, geneSum, traitSum,
      PDist.zero, failsEvidence, powerset, pnames, jointProbability, personFactor,
      geneProbability, geneCount, passProb, optMem, PROBSgene, PROBStrait, PROBSmutation,
      Option.some_ne_none]

/-- Claim C9, amended: the program never rejects an input family mapping —
malformed or not.  For every family dictionary (distinct names, as Python dict
keys are), enumeration, evaluation and accumulation proceed (treating a
missing or unknown parent as a zero-gene parent with pass probability
mutationRate) and normalization succeeds, producing output. -/
theorem c9_no_rejection (people : People) (hnd : (pnames people).Nodup) :
    (runProgram people).isSome = true := by
  have hpos : 0 < sumMap (hypothesesList people)
      (fun h => jointProbability people h.1 h.2.1 h.2.2) :=
    sumMap_pos _ _ (fun h _ => jointProbability_pos people h.1 h.2.1 h.2.2)
      (hypothesesList_ne_nil people hnd)
  have hmain := mainProbabilities_eq people
  have hnorm : runProgram people =
      some ((mainProbabilities people).map (fun pr => (pr.1, scaleDist pr.2))) := by
    unfold runProgram
    apply normalizeProbs_all_some
    intro pr hpr
    rw [hmain] at hpr
    obtain ⟨q, hq, rfl⟩ := List.mem_map.mp hpr
    apply normalizeDist_of_ne
    · rw [geneSum_contrib]
      exact ne_of_gt hpos
    · rw [traitSum_contrib]
      exact ne_of_gt hpos
  rw [hnorm]
  rfl

/-- Witness for C9's amended claim at the malformed graph. -/
theorem c9_witness : (runProgram malformedFam).isSome = true :=
  c9_no_rejection malformedFam (by decide)
